import Mathlib

/-!
# go-pingr: range expansion, report and output of the ICMP sweep

A shallow embedding of `main.go` of go-pingr and the properties of its
range expander (`parseRange`), worker loop (`runPings`), response report
(`main`), output writer (`writeFile`) and flag handling (`parseFlags`).

Conventions of the embedding.

* A Go `string` is a `List Char`. The program only splits on the ASCII
  separators `.` and `-` and reads ASCII digits, so splitting by character
  agrees with Go's splitting by byte.
* Go's `int` is the 64-bit two's complement integer of the usual targets:
  an `Int` reduced by `wrapInt` after every arithmetic operation.
* A buffered channel is its queue of buffered values with its capacity.
  A send on a full channel, or a receive from an empty one, with no other
  goroutine able to complete it, blocks: outcome `blocked`.
* `os.Exit(1)` after a printed message is the outcome `exit`; a runtime
  panic is the outcome `panic`.
* The largest capacity `make` accepts is a constant of the Go runtime that
  differs between releases; the model follows `make` up to the capacity
  `2^32` and answers `unspecified` beyond it.
* Loops whose termination depends on the data take a fuel argument and
  answer `outOfFuel` when it runs out.
-/

namespace Pingr

/-! ## Go runtime and standard library -/

/-- Text of a Go string. -/
abbrev Str := List Char

/-- Largest value of a Go `int` (64 bit). -/
def maxInt : Int := 2 ^ 63 - 1

/-- Smallest value of a Go `int` (64 bit). -/
def minInt : Int := -(2 ^ 63)

/-- Two's complement wrap-around of a mathematical integer into a Go `int`. -/
def wrapInt (x : Int) : Int := (x + 2 ^ 63) % 2 ^ 64 - 2 ^ 63

/-- Messages the program prints before `os.Exit(1)`. -/
inductive ExitMsg where
  /-- The `printErrString` call of parseRange: Error: Invalid IP range. -/
  | invalidRange
  /-- The `printErr(err)` call with the error returned by `strconv.Atoi`. -/
  | atoiError
  /-- The `printErr(err)` call with the error of `net.ResolveIPAddr`. -/
  | resolveError
  /-- The `printErr(err)` call with the error of the pinger's `Run`. -/
  | pingerError
  /-- The `printErrString` call of writeFile: Could not get SUDO_USER. -/
  | noSudoUser
  /-- The `printErrString` call of writeFile: could not find user. -/
  | userNotFound
  deriving DecidableEq, Repr

/-- How a piece of the program ends. -/
inductive Outcome (α : Type) where
  /-- Normal completion with a result. -/
  | ok (v : α)
  /-- A message was printed and the process left with status 1. -/
  | exit (msg : ExitMsg)
  /-- A Go runtime panic. -/
  | panic
  /-- The goroutine waits forever on a channel operation. -/
  | blocked
  /-- The fuel of the model ran out before the code finished. -/
  | outOfFuel
  /-- The model leaves the run open: what happens is decided by the Go
  release and target, not by the program. -/
  | unspecified
  deriving DecidableEq, Repr

/-- Sequencing of outcomes: the first abnormal outcome wins. -/
def Outcome.bind {α β : Type} : Outcome α → (α → Outcome β) → Outcome β
  | .ok v, f => f v
  | .exit m, _ => .exit m
  | .panic, _ => .panic
  | .blocked, _ => .blocked
  | .outOfFuel, _ => .outOfFuel
  | .unspecified, _ => .unspecified

/-- Go's `strings.Split(s, sep)` for a separator of one character: the
pieces of `s` between the occurrences of `sep`, at least one piece. -/
def stringsSplit (sep : Char) : Str → List Str
  | [] => [[]]
  | c :: cs =>
    if c = sep then [] :: stringsSplit sep cs
    else
      match stringsSplit sep cs with
      | [] => [[c]]
      | p :: ps => (c :: p) :: ps

/-- Value of a decimal digit, if the character is one. -/
def digitVal (c : Char) : Option Nat :=
  if 48 ≤ c.toNat ∧ c.toNat ≤ 57 then some (c.toNat - 48) else none

/-- Reads a run of decimal digits, most significant first. -/
def parseDigits : Str → Nat → Option Nat
  | [], acc => some acc
  | c :: cs, acc =>
    match digitVal c with
    | none => none
    | some d => parseDigits cs (acc * 10 + d)

/-- Go's `strconv.Atoi`: an optional sign followed by one or more decimal
digits whose value fits an `int`; `none` stands for a non-nil error
(invalid syntax or value out of range). -/
def atoi (s : Str) : Option Int :=
  let signed : Bool × Str :=
    match s with
    | '-' :: r => (true, r)
    | '+' :: r => (false, r)
    | _ => (false, s)
  match signed.2 with
  | [] => none
  | d :: ds =>
    match parseDigits (d :: ds) 0 with
    | none => none
    | some n =>
      let v : Int := if signed.1 then -(n : Int) else (n : Int)
      if minInt ≤ v ∧ v ≤ maxInt then some v else none

/-- The verb `%d` of `fmt.Sprintf` applied to an `int`. -/
def fmtInt (x : Int) : Str :=
  if x < 0 then '-' :: Nat.toDigits 10 x.natAbs else Nat.toDigits 10 x.toNat

/-- The call `fmt.Sprintf("%d.%d.%d.%d", a, b, c, d)`. -/
def sprintfAddr (a b c d : Int) : Str :=
  fmtInt a ++ '.' :: (fmtInt b ++ '.' :: (fmtInt c ++ '.' :: fmtInt d))

/-- A buffered channel of strings: the queued values, oldest first, and the
capacity given to `make`. -/
structure Chan where
  buf : List Str
  cap : Nat
  deriving DecidableEq, Repr

/-- A capacity that passes the size check of `make(chan string, n)` on every
64-bit Go runtime: `2^32`, the capacity parseRange asks for on the full range
`0-255.0-255.0-255.0-255`. The largest capacity the check accepts is a
constant of the runtime (near `2^44`) that differs between Go releases. -/
def sureChanCap : Int := 2 ^ 32

/-- The call `make(chan string, size)`: the runtime panics on a negative
capacity and returns a channel for a capacity up to `sureChanCap`; for a
larger capacity the Go release decides between a channel and a panic, and
the model leaves the outcome open. -/
def makeChan (size : Int) : Outcome Chan :=
  if size < 0 then .panic
  else if size ≤ sureChanCap then .ok { buf := [], cap := size.toNat }
  else .unspecified

/-- A send `ch <- x` while no goroutine receives from `ch`: buffered when
there is room, blocked forever otherwise. -/
def Chan.send (ch : Chan) (x : Str) : Outcome Chan :=
  if ch.buf.length < ch.cap then .ok { ch with buf := ch.buf ++ [x] } else .blocked

/-- The loop `for i := lo; i <= hi; i++ { body }` over Go ints acting on a
state, started at `i`; every test of the condition uses one unit of fuel. -/
def forLoop {σ : Type} (body : Int → σ → Outcome σ) (hi : Int) : Nat → Int → σ → Outcome σ
  | 0, _, _ => .outOfFuel
  | fuel + 1, i, s =>
    if i ≤ hi then
      match body i s with
      | .ok s' => forLoop body hi fuel (wrapInt (i + 1)) s'
      | .exit m => .exit m
      | .panic => .panic
      | .blocked => .blocked
      | .outOfFuel => .outOfFuel
      | .unspecified => .unspecified
    else .ok s

/-! ## parseRange -/

/-- The loop `for i, each := range ranges` of parseRange: fills
`rangeList[2i]` and `rangeList[2i+1]` from the dash-separated parts of each
component; only the first two parts of a component are ever read. -/
def parseComponents : List Str → Nat → List Int → Outcome (List Int)
  | [], _, rangeList => .ok rangeList
  | each :: rest, i, rangeList =>
    let twoNums := stringsSplit '-' each
    match atoi (twoNums.getD 0 []) with
    | none => .exit .atoiError
    | some lo =>
      let rangeList := rangeList.set (2 * i) lo
      match (if twoNums.length = 1 then atoi (twoNums.getD 0 []) else atoi (twoNums.getD 1 [])) with
      | none => .exit .atoiError
      | some hi => parseComponents rest (i + 1) (rangeList.set (2 * i + 1) hi)

/-- What parseRange leaves behind: the returned channel `ips` and the
global `total`. -/
structure RangeResult where
  ips : Chan
  total : Int
  deriving DecidableEq, Repr

/-- The four nested `for` loops of parseRange sending every address into
`ips`. -/
def fillIps (a1 a2 b1 b2 c1 c2 d1 d2 : Int) (fuel : Nat) (ips : Chan) : Outcome Chan :=
  forLoop (fun a =>
    forLoop (fun b =>
      forLoop (fun c =>
        forLoop (fun d ch => ch.send (sprintfAddr a b c d)) d2 fuel d1)
        c2 fuel c1)
      b2 fuel b1)
    a2 fuel a1 ips

/-- The function `parseRange` applied to the positional argument
`rangeStr`; `fuel` bounds the number of condition tests of each loop. -/
def parseRange (rangeStr : Str) (fuel : Nat) : Outcome RangeResult :=
  let ranges := stringsSplit '.' rangeStr
  if ranges.length ≠ 4 then .exit .invalidRange
  else
    (parseComponents ranges 0 (List.replicate 8 0)).bind fun rangeList =>
      let a1 := rangeList.getD 0 0
      let a2 := rangeList.getD 1 0
      let aRange := wrapInt (wrapInt (a2 - a1) + 1)
      let b1 := rangeList.getD 2 0
      let b2 := rangeList.getD 3 0
      let bRange := wrapInt (wrapInt (b2 - b1) + 1)
      let c1 := rangeList.getD 4 0
      let c2 := rangeList.getD 5 0
      let cRange := wrapInt (wrapInt (c2 - c1) + 1)
      let d1 := rangeList.getD 6 0
      let d2 := rangeList.getD 7 0
      let dRange := wrapInt (wrapInt (d2 - d1) + 1)
      let total := wrapInt (wrapInt (wrapInt (aRange * bRange) * cRange) * dRange)
      (makeChan total).bind fun ips =>
        (fillIps a1 a2 b1 b2 c1 c2 d1 d2 fuel ips).bind fun ips => .ok { ips := ips, total := total }

/-- The `total` parseRange computes from the eight parsed bounds, in Go
`int` arithmetic. -/
def rangeTotal (a1 a2 b1 b2 c1 c2 d1 d2 : Int) : Int :=
  wrapInt (wrapInt (wrapInt (wrapInt (wrapInt (a2 - a1) + 1) * wrapInt (wrapInt (b2 - b1) + 1))
    * wrapInt (wrapInt (c2 - c1) + 1)) * wrapInt (wrapInt (d2 - d1) + 1))

/-- What the loop of parseRange reads from one component: the first
dash-separated part as lower bound, and as upper bound the second part, or
the first again when the component has exactly one part. -/
def ReadsAs (each : Str) (lo hi : Int) : Prop :=
  atoi ((stringsSplit '-' each).getD 0 []) = some lo ∧
  (if (stringsSplit '-' each).length = 1 then atoi ((stringsSplit '-' each).getD 0 [])
    else atoi ((stringsSplit '-' each).getD 1 [])) = some hi

instance (each : Str) (lo hi : Int) : Decidable (ReadsAs each lo hi) := by
  unfold ReadsAs
  infer_instance

/-! ## The response report of main -/

/-- One `fmt.Printf` call of the loop over `responsesList` in main. -/
inductive ReportLine where
  /-- The call `fmt.Printf("| %s", response)`. -/
  | response (text : Str)
  /-- The call `fmt.Printf("| ... %d entries have been truncated.\n", n)`. -/
  | truncated (n : Int)
  deriving DecidableEq, Repr

/-- The loop `for i, response := range responsesList` of main from index `i`
on, where `len` is `len(responsesList)`: what it prints, in order. -/
def reportFrom (len : Nat) : Nat → List Str → List ReportLine
  | _, [] => []
  | i, response :: rest =>
    (if i < 25 then [ReportLine.response response]
      else if i = 26 then [ReportLine.truncated ((len : Int) - 25)]
      else [])
      ++ reportFrom len (i + 1) rest

/-- The lines main prints between the Responses header and the Statistics
header. -/
def printResponses (responsesList : List Str) : List ReportLine :=
  reportFrom responsesList.length 0 responsesList

/-! ## writeFile -/

/-- What writeFile sees of the operating system. -/
structure FileEnv where
  /-- Whether `os.WriteFile` returns an error. -/
  writeFileFails : Bool
  /-- The value of the environment variable SUDO_USER. -/
  sudoUser : Str
  /-- Whether `user.Lookup` finds that user. -/
  userKnown : Bool
  deriving DecidableEq, Repr

/-- The loop `for len(resChan) > 0 { csvString += <-resChan + "\n" }` on the
buffered values of resChan: the values left in the channel and the final
`csvString`. -/
def drainResChan : List Str → Str → List Str × Str
  | [], csvString => ([], csvString)
  | addr :: rest, csvString => drainResChan rest (csvString ++ (addr ++ ['\n']))

/-- What writeFile leaves behind. -/
structure WriteResult where
  /-- The content `os.WriteFile` stored in the output file, when it succeeded. -/
  written : Option Str
  /-- The channel resChan afterwards. -/
  resChan : Chan
  /-- How the function ended. -/
  outcome : Outcome Unit
  deriving DecidableEq, Repr

/-- The function `writeFile`, run while no goroutine sends to resChan. -/
def writeFile (env : FileEnv) (resChan : Chan) : WriteResult :=
  let drained := drainResChan resChan.buf []
  let resChan := { resChan with buf := drained.1 }
  let csvString := drained.2
  if env.writeFileFails then { written := none, resChan := resChan, outcome := .panic }
  else if env.sudoUser = [] then
    { written := some csvString, resChan := resChan, outcome := .exit .noSudoUser }
  else if env.userKnown = false then
    { written := some csvString, resChan := resChan, outcome := .exit .userNotFound }
  else { written := some csvString, resChan := resChan, outcome := .ok () }

/-! ## parseFlags -/

/-- The global flag variables. -/
structure Flags where
  verbose : Bool
  outFile : Str
  threadCount : Int
  deriving DecidableEq, Repr

/-- The function `parseFlags` on a command line that gives (or omits) the
flags `-v`, `-o` and `-t`: `flag.Parse` stores the given value or the
declared default, then a non-positive thread count is replaced. -/
def parseFlags (v : Option Bool) (o : Option Str) (t : Option Int) : Flags :=
  let verbose := v.getD false
  let outFile := o.getD []
  let threadCount := t.getD 8192
  { verbose := verbose, outFile := outFile,
    threadCount := if threadCount ≤ 0 then 8192 else threadCount }

/-! ## runPings -/

/-- What the pinger does for one address. -/
inductive Probe where
  /-- The call `net.ResolveIPAddr` returns an error. -/
  | resolveFails
  /-- The call `p.Run()` returns an error. -/
  | runFails
  /-- The pinger calls OnRecv when `reply` holds the text of the responding
  address and round-trip time, and then OnIdle. -/
  | finished (reply : Option Str)
  deriving DecidableEq, Repr

/-- The variables a worker shares with main and the other workers. -/
structure World where
  done : Bool
  scanned : Int
  ips : Chan
  responses : Chan
  idles : Chan
  resChan : Chan
  deriving DecidableEq, Repr

/-- The message OnRecv sends, `reply` being the formatted address and RTT. -/
def responseMessage (reply : Str) : Str :=
  "[RESPONSE RECIEVED] IP Addr: ".toList ++ reply ++ ['\n']

/-- The message OnIdle sends. -/
def idleMessage (addrString : Str) : Str :=
  "IP Scanned: ".toList ++ addrString ++ ['\n']

/-- The callback OnRecv of runPings. -/
def onRecv (w : World) (addrString reply : Str) : Outcome World :=
  (w.responses.send (responseMessage reply)).bind fun responses =>
    (w.resChan.send addrString).bind fun resChan =>
      .ok { w with responses := responses, resChan := resChan }

/-- The callback OnIdle of runPings. -/
def onIdle (w : World) (addrString : Str) : Outcome World :=
  (w.idles.send (idleMessage addrString)).bind fun idles =>
    .ok { w with idles := idles, scanned := wrapInt (w.scanned + 1) }

/-- The effect of `p.Run()` on the shared variables when it returns no
error: the pinger calls OnRecv if a reply arrived and then OnIdle. -/
def pingerRun (w : World) (addrString : Str) (reply : Option Str) : Outcome World :=
  (match reply with
    | some text => onRecv w addrString text
    | none => .ok w).bind fun w => onIdle w addrString

/-- The function `runPings` of one worker while no other goroutine touches
the shared variables: `.ok` is the return after the loop, `.blocked` a
receive `<-ips` that nothing will ever complete (the program never closes
`ips` and sends to it only inside parseRange). Every test of the loop
condition uses one unit of fuel. -/
def runPings (probe : Str → Probe) : Nat → World → Outcome World
  | 0, _ => .outOfFuel
  | fuel + 1, w =>
    if w.done then .ok w
    else
      match w.ips.buf with
      | [] => .blocked
      | addrString :: rest =>
        match probe addrString with
        | .resolveFails => .exit .resolveError
        | .runFails => .exit .pingerError
        | .finished reply =>
          (pingerRun { w with ips := { w.ips with buf := rest } } addrString reply).bind
            (runPings probe fuel)

/-! ## Vocabulary of the range format -/

/-- The integers `lo, lo+1, ..., hi` in ascending order (empty when `hi < lo`). -/
def interval (lo hi : Int) : List Int :=
  (List.range (hi + 1 - lo).toNat).map fun (k : Nat) => lo + (k : Int)

/-- Runs `body` on the elements of a list in order, stopping at the first
abnormal outcome. -/
def forEach {σ : Type} (body : Int → σ → Outcome σ) : List Int → σ → Outcome σ
  | [], s => .ok s
  | i :: is, s => (body i s).bind (forEach body is)

/-- Sends the strings of a list in order into a channel nobody reads. -/
def sendAll : List Str → Chan → Outcome Chan
  | [], ch => .ok ch
  | x :: xs, ch => (ch.send x).bind (sendAll xs)

/-- The strings the nested loops of parseRange send, in sending order. -/
def addresses (a1 a2 b1 b2 c1 c2 d1 d2 : Int) : List Str :=
  (interval a1 a2).flatMap fun a =>
    (interval b1 b2).flatMap fun b =>
      (interval c1 c2).flatMap fun c =>
        (interval d1 d2).map fun d => sprintfAddr a b c d

/-- The cross product of four intervals, first component outermost and last
innermost. -/
def crossProduct (a1 a2 b1 b2 c1 c2 d1 d2 : Int) : List (Int × Int × Int × Int) :=
  (interval a1 a2).flatMap fun a =>
    (interval b1 b2).flatMap fun b =>
      (interval c1 c2).flatMap fun c =>
        (interval d1 d2).map fun d => (a, b, c, d)

/-- An address tuple rendered as `a.b.c.d`. -/
def renderAddr (t : Int × Int × Int × Int) : Str :=
  sprintfAddr t.1 t.2.1 t.2.2.1 t.2.2.2

/-- Strict lexicographic order on address tuples, first component most
significant. -/
def LexLt (s t : Int × Int × Int × Int) : Prop :=
  s.1 < t.1 ∨ (s.1 = t.1 ∧ (s.2.1 < t.2.1 ∨ (s.2.1 = t.2.1 ∧
    (s.2.2.1 < t.2.2.1 ∨ (s.2.2.1 = t.2.2.1 ∧ s.2.2.2 < t.2.2.2)))))

instance (s t : Int × Int × Int × Int) : Decidable (LexLt s t) := by
  unfold LexLt
  infer_instance

/-- The bounds a descriptor component denotes according to the range
format: a single value `v` stands for `[v, v]`, a pair `lo-hi` for
`[lo, hi]`; anything else denotes nothing. -/
def componentBounds (comp : Str) : Option (Int × Int) :=
  match stringsSplit '-' comp with
  | [v] =>
    match atoi v with
    | some x => some (x, x)
    | none => none
  | [lo, hi] =>
    match atoi lo, atoi hi with
    | some l, some h => some (l, h)
    | _, _ => none
  | _ => none

/-- The four intervals a range descriptor denotes according to the range
format: exactly four dot-separated components, each with bounds. -/
def descriptorBounds (s : Str) : Option (List (Int × Int)) :=
  match stringsSplit '.' s with
  | [p, q, r, t] =>
    match componentBounds p, componentBounds q, componentBounds r, componentBounds t with
    | some a, some b, some c, some d => some [a, b, c, d]
    | _, _, _, _ => none
  | _ => none

/-- A valid range descriptor with its bounds: four components, each a value
or a pair, with `0 ≤ lo ≤ hi ≤ 255` in every component. -/
def ValidDescriptor (s : Str) (a1 a2 b1 b2 c1 c2 d1 d2 : Int) : Prop :=
  descriptorBounds s = some [(a1, a2), (b1, b2), (c1, c2), (d1, d2)] ∧
  (0 ≤ a1 ∧ a1 ≤ a2 ∧ a2 ≤ 255) ∧ (0 ≤ b1 ∧ b1 ≤ b2 ∧ b2 ≤ 255) ∧
  (0 ≤ c1 ∧ c1 ≤ c2 ∧ c2 ≤ 255) ∧ (0 ≤ d1 ∧ d1 ≤ d2 ∧ d2 ≤ 255)

instance (s : Str) (a1 a2 b1 b2 c1 c2 d1 d2 : Int) :
    Decidable (ValidDescriptor s a1 a2 b1 b2 c1 c2 d1 d2) := by
  unfold ValidDescriptor
  infer_instance

/-- A component of a range descriptor as it is written: a single value or a
pair of values. -/
inductive Component where
  | single (v : Nat)
  | pair (lo hi : Nat)
  deriving DecidableEq, Repr

/-- The text of a component: `v`, or `lo-hi`, in decimal. -/
def Component.text : Component → Str
  | .single v => Nat.toDigits 10 v
  | .pair lo hi => Nat.toDigits 10 lo ++ '-' :: Nat.toDigits 10 hi

/-- The interval a component stands for. -/
def Component.lo : Component → Int
  | .single v => v
  | .pair lo _ => lo

/-- The upper bound of the interval a component stands for. -/
def Component.hi : Component → Int
  | .single v => v
  | .pair _ hi => hi

/-- The text of a range descriptor: four components joined by dots. -/
def descriptorText (p q r t : Component) : Str :=
  p.text ++ '.' :: (q.text ++ '.' :: (r.text ++ '.' :: t.text))

/-! ## Lemmas on the model -/

theorem wrapInt_of_fits {x : Int} (h1 : minInt ≤ x) (h2 : x ≤ maxInt) : wrapInt x = x := by
  unfold wrapInt
  unfold minInt at h1
  unfold maxInt at h2
  omega

theorem interval_empty {lo hi : Int} (h : hi < lo) : interval lo hi = [] := by
  unfold interval
  have : (hi + 1 - lo).toNat = 0 := by omega
  simp [this]

theorem interval_cons {lo hi : Int} (h : lo ≤ hi) :
    interval lo hi = lo :: interval (lo + 1) hi := by
  unfold interval
  obtain ⟨n, hn⟩ : ∃ n : Nat, (hi + 1 - lo).toNat = n + 1 := ⟨(hi - lo).toNat, by omega⟩
  have hn2 : (hi + 1 - (lo + 1)).toNat = n := by omega
  rw [hn, hn2, List.range_succ_eq_map]
  simp [Function.comp_def]
  intro a _
  omega

theorem mem_interval {lo hi x : Int} : x ∈ interval lo hi ↔ lo ≤ x ∧ x ≤ hi := by
  unfold interval
  simp only [List.mem_map, List.mem_range]
  constructor
  · rintro ⟨k, hk, rfl⟩
    omega
  · intro ⟨h1, h2⟩
    exact ⟨(x - lo).toNat, by omega, by omega⟩

theorem length_interval (lo hi : Int) : (interval lo hi).length = (hi + 1 - lo).toNat := by
  simp [interval]

theorem forLoop_eq_forEach {σ : Type} (body : Int → σ → Outcome σ) (hi : Int) (hhi : hi < maxInt) :
    ∀ (fuel : Nat) (lo : Int) (s : σ), minInt ≤ lo → (hi + 1 - lo).toNat < fuel →
      forLoop body hi fuel lo s = forEach body (interval lo hi) s := by
  intro fuel
  induction fuel with
  | zero => intro lo s _ h; omega
  | succ n ih =>
    intro lo s hlo hf
    by_cases hle : lo ≤ hi
    · have hw : wrapInt (lo + 1) = lo + 1 :=
        wrapInt_of_fits (by omega) (by omega)
      rw [interval_cons hle]
      simp only [forLoop, hle, if_true, forEach, hw]
      cases hb : body lo s with
      | ok s' =>
        simp only [Outcome.bind]
        exact ih (lo + 1) s' (by omega) (by omega)
      | exit m => rfl
      | panic => rfl
      | blocked => rfl
      | outOfFuel => rfl
      | unspecified => rfl
    · rw [interval_empty (by omega)]
      simp [forLoop, hle, forEach]

theorem forLoop_eq_forEach_fun {σ : Type} (body : Int → σ → Outcome σ) {lo hi : Int} {fuel : Nat}
    (hhi : hi < maxInt) (hlo : minInt ≤ lo) (hf : (hi + 1 - lo).toNat < fuel) :
    forLoop body hi fuel lo = forEach body (interval lo hi) :=
  funext fun s => forLoop_eq_forEach body hi hhi fuel lo s hlo hf

theorem sendAll_append (xs ys : List Str) (ch : Chan) :
    sendAll (xs ++ ys) ch = (sendAll xs ch).bind (sendAll ys) := by
  induction xs generalizing ch with
  | nil => rfl
  | cons x xs ih =>
    simp only [List.cons_append, sendAll]
    cases ch.send x with
    | ok ch' => simpa [Outcome.bind] using ih ch'
    | exit m => rfl
    | panic => rfl
    | blocked => rfl
    | outOfFuel => rfl
    | unspecified => rfl

theorem forEach_send (f : Int → Str) (l : List Int) (ch : Chan) :
    forEach (fun d ch => ch.send (f d)) l ch = sendAll (l.map f) ch := by
  induction l generalizing ch with
  | nil => rfl
  | cons i is ih =>
    simp only [forEach, List.map_cons, sendAll]
    congr 1
    funext ch'
    exact ih ch'

theorem forEach_sendAll (g : Int → List Str) (l : List Int) (ch : Chan) :
    forEach (fun a ch => sendAll (g a) ch) l ch = sendAll (l.flatMap g) ch := by
  induction l generalizing ch with
  | nil => rfl
  | cons i is ih =>
    simp only [forEach, List.flatMap_cons, sendAll_append]
    congr 1
    funext ch'
    exact ih ch'

theorem sendAll_ok (xs : List Str) (ch : Chan) (h : ch.buf.length + xs.length ≤ ch.cap) :
    sendAll xs ch = .ok { ch with buf := ch.buf ++ xs } := by
  induction xs generalizing ch with
  | nil => simp [sendAll]
  | cons x xs ih =>
    have hlt : ch.buf.length < ch.cap := by
      simp only [List.length_cons] at h
      omega
    simp only [sendAll, Chan.send, hlt, if_true, Outcome.bind]
    rw [ih]
    · simp
    · simp only [List.length_append, List.length_cons, List.length_nil] at h ⊢
      omega

theorem fillIps_eq_sendAll {a1 a2 b1 b2 c1 c2 d1 d2 : Int} {fuel : Nat} (ips : Chan)
    (ha1 : minInt ≤ a1) (ha2 : a2 < maxInt) (hfa : (a2 + 1 - a1).toNat < fuel)
    (hb1 : minInt ≤ b1) (hb2 : b2 < maxInt) (hfb : (b2 + 1 - b1).toNat < fuel)
    (hc1 : minInt ≤ c1) (hc2 : c2 < maxInt) (hfc : (c2 + 1 - c1).toNat < fuel)
    (hd1 : minInt ≤ d1) (hd2 : d2 < maxInt) (hfd : (d2 + 1 - d1).toNat < fuel) :
    fillIps a1 a2 b1 b2 c1 c2 d1 d2 fuel ips
      = sendAll (addresses a1 a2 b1 b2 c1 c2 d1 d2) ips := by
  unfold fillIps addresses
  have hd : ∀ a b c : Int,
      forLoop (fun d (ch : Chan) => ch.send (sprintfAddr a b c d)) d2 fuel d1
        = sendAll ((interval d1 d2).map fun d => sprintfAddr a b c d) := by
    intro a b c
    rw [forLoop_eq_forEach_fun _ hd2 hd1 hfd]
    funext ch
    exact forEach_send _ _ ch
  simp only [hd]
  have hc : ∀ a b : Int,
      forLoop (fun c => sendAll ((interval d1 d2).map fun d => sprintfAddr a b c d)) c2 fuel c1
        = sendAll ((interval c1 c2).flatMap fun c =>
            (interval d1 d2).map fun d => sprintfAddr a b c d) := by
    intro a b
    rw [forLoop_eq_forEach_fun _ hc2 hc1 hfc]
    funext ch
    exact forEach_sendAll _ _ ch
  simp only [hc]
  have hb : ∀ a : Int,
      forLoop (fun b => sendAll ((interval c1 c2).flatMap fun c =>
            (interval d1 d2).map fun d => sprintfAddr a b c d)) b2 fuel b1
        = sendAll ((interval b1 b2).flatMap fun b => (interval c1 c2).flatMap fun c =>
            (interval d1 d2).map fun d => sprintfAddr a b c d) := by
    intro a
    rw [forLoop_eq_forEach_fun _ hb2 hb1 hfb]
    funext ch
    exact forEach_sendAll _ _ ch
  simp only [hb]
  rw [forLoop_eq_forEach_fun _ ha2 ha1 hfa]
  exact forEach_sendAll _ _ ips

theorem length_addresses (a1 a2 b1 b2 c1 c2 d1 d2 : Int) :
    (addresses a1 a2 b1 b2 c1 c2 d1 d2).length
      = (a2 + 1 - a1).toNat * ((b2 + 1 - b1).toNat * ((c2 + 1 - c1).toNat * (d2 + 1 - d1).toNat)) := by
  simp [addresses, List.length_flatMap, length_interval, Function.comp_def]

theorem atoi_fits {s : Str} {v : Int} (h : atoi s = some v) : minInt ≤ v ∧ v ≤ maxInt := by
  unfold atoi at h
  dsimp only at h
  repeat' split at h
  all_goals first
    | (cases h
       assumption)
    | cases h

theorem parseComponents_four {p q r t : Str} {a1 a2 b1 b2 c1 c2 d1 d2 : Int}
    (hp : ReadsAs p a1 a2) (hq : ReadsAs q b1 b2) (hr : ReadsAs r c1 c2) (ht : ReadsAs t d1 d2) :
    parseComponents [p, q, r, t] 0 (List.replicate 8 0)
      = .ok [a1, a2, b1, b2, c1, c2, d1, d2] := by
  obtain ⟨hp1, hp2⟩ := hp
  obtain ⟨hq1, hq2⟩ := hq
  obtain ⟨hr1, hr2⟩ := hr
  obtain ⟨ht1, ht2⟩ := ht
  rw [hp1] at hp2
  rw [hq1] at hq2
  rw [hr1] at hr2
  rw [ht1] at ht2
  simp only [parseComponents, hp1, hp2, hq1, hq2, hr1, hr2, ht1, ht2]
  rfl

theorem parseRange_eq {s p q r t : Str} {a1 a2 b1 b2 c1 c2 d1 d2 : Int} {fuel : Nat}
    (hs : stringsSplit '.' s = [p, q, r, t])
    (hp : ReadsAs p a1 a2) (hq : ReadsAs q b1 b2) (hr : ReadsAs r c1 c2) (ht : ReadsAs t d1 d2)
    (ha2 : a2 < maxInt) (hfa : (a2 + 1 - a1).toNat < fuel)
    (hb2 : b2 < maxInt) (hfb : (b2 + 1 - b1).toNat < fuel)
    (hc2 : c2 < maxInt) (hfc : (c2 + 1 - c1).toNat < fuel)
    (hd2 : d2 < maxInt) (hfd : (d2 + 1 - d1).toNat < fuel) :
    parseRange s fuel =
      (makeChan (rangeTotal a1 a2 b1 b2 c1 c2 d1 d2)).bind fun ips =>
        (sendAll (addresses a1 a2 b1 b2 c1 c2 d1 d2) ips).bind fun ips =>
          .ok { ips := ips, total := rangeTotal a1 a2 b1 b2 c1 c2 d1 d2 } := by
  have ha1 := (atoi_fits hp.1).1
  have hb1 := (atoi_fits hq.1).1
  have hc1 := (atoi_fits hr.1).1
  have hd1 := (atoi_fits ht.1).1
  unfold parseRange
  simp only [hs, parseComponents_four hp hq hr ht, Outcome.bind, List.length_cons,
    List.length_nil]
  simp only [List.getD_cons_zero, List.getD_cons_succ, ne_eq, not_true_eq_false, if_false,
    rangeTotal, Nat.reduceAdd]
  cases makeChan (wrapInt (wrapInt (wrapInt (wrapInt (wrapInt (a2 - a1) + 1)
      * wrapInt (wrapInt (b2 - b1) + 1)) * wrapInt (wrapInt (c2 - c1) + 1))
      * wrapInt (wrapInt (d2 - d1) + 1))) with
  | ok ips =>
    simp only [Outcome.bind, fillIps_eq_sendAll ips ha1 ha2 hfa hb1 hb2 hfb hc1 hc2 hfc hd1 hd2 hfd]
  | exit m => rfl
  | panic => rfl
  | blocked => rfl
  | outOfFuel => rfl
  | unspecified => rfl

theorem readsAs_of_componentBounds {comp : Str} {lo hi : Int}
    (h : componentBounds comp = some (lo, hi)) : ReadsAs comp lo hi := by
  unfold componentBounds at h
  unfold ReadsAs
  split at h
  · rename_i v hv
    rw [hv]
    split at h
    · rename_i x hx
      simp only [Option.some.injEq, Prod.mk.injEq] at h
      obtain ⟨rfl, rfl⟩ := h
      simp [hx]
    · cases h
  · rename_i l r hv
    rw [hv]
    split at h
    · rename_i x y hx hy
      simp only [Option.some.injEq, Prod.mk.injEq] at h
      obtain ⟨rfl, rfl⟩ := h
      simp [hx, hy]
    · cases h
  · cases h

theorem split_of_descriptorBounds {s : Str} {a1 a2 b1 b2 c1 c2 d1 d2 : Int}
    (h : descriptorBounds s = some [(a1, a2), (b1, b2), (c1, c2), (d1, d2)]) :
    ∃ p q r t, stringsSplit '.' s = [p, q, r, t] ∧ componentBounds p = some (a1, a2) ∧
      componentBounds q = some (b1, b2) ∧ componentBounds r = some (c1, c2) ∧
      componentBounds t = some (d1, d2) := by
  unfold descriptorBounds at h
  split at h
  · rename_i p q r t hs
    refine ⟨p, q, r, t, hs, ?_⟩
    split at h
    · rename_i a b c d ha hb hc hd
      simp only [Option.some.injEq, List.cons.injEq, and_true] at h
      obtain ⟨rfl, rfl, rfl, rfl⟩ := h
      exact ⟨ha, hb, hc, hd⟩
    · cases h
  · cases h

theorem rangeTotal_eq {a1 a2 b1 b2 c1 c2 d1 d2 : Int}
    (ha : a1 ≤ a2) (hb : b1 ≤ b2) (hc : c1 ≤ c2) (hd : d1 ≤ d2)
    (hprod : (a2 - a1 + 1) * (b2 - b1 + 1) * (c2 - c1 + 1) * (d2 - d1 + 1) ≤ maxInt) :
    rangeTotal a1 a2 b1 b2 c1 c2 d1 d2
      = (a2 - a1 + 1) * (b2 - b1 + 1) * (c2 - c1 + 1) * (d2 - d1 + 1) := by
  have hA : (1 : Int) ≤ a2 - a1 + 1 := by omega
  have hB : (1 : Int) ≤ b2 - b1 + 1 := by omega
  have hC : (1 : Int) ≤ c2 - c1 + 1 := by omega
  have hD : (1 : Int) ≤ d2 - d1 + 1 := by omega
  have hAB : (1 : Int) ≤ (a2 - a1 + 1) * (b2 - b1 + 1) := one_le_mul_of_one_le_of_one_le hA hB
  have hABC : (1 : Int) ≤ (a2 - a1 + 1) * (b2 - b1 + 1) * (c2 - c1 + 1) :=
    one_le_mul_of_one_le_of_one_le hAB hC
  have h3 : (a2 - a1 + 1) * (b2 - b1 + 1) * (c2 - c1 + 1) ≤ maxInt :=
    le_trans (le_mul_of_one_le_right (by omega) hD) hprod
  have h2 : (a2 - a1 + 1) * (b2 - b1 + 1) ≤ maxInt :=
    le_trans (le_mul_of_one_le_right (by omega) hC) h3
  have h1 : a2 - a1 + 1 ≤ maxInt := le_trans (le_mul_of_one_le_right (by omega) hB) h2
  have h1b : b2 - b1 + 1 ≤ maxInt := le_trans (le_mul_of_one_le_left (by omega) hA) h2
  have h1c : c2 - c1 + 1 ≤ maxInt := le_trans (le_mul_of_one_le_left (by omega) hAB) h3
  have h1d : d2 - d1 + 1 ≤ maxInt := le_trans (le_mul_of_one_le_left (by omega) hABC) hprod
  have hABCD : (1 : Int) ≤ (a2 - a1 + 1) * (b2 - b1 + 1) * (c2 - c1 + 1) * (d2 - d1 + 1) :=
    one_le_mul_of_one_le_of_one_le hABC hD
  have hmin : minInt = -(2 ^ 63) := rfl
  have hmax : maxInt = 2 ^ 63 - 1 := rfl
  unfold rangeTotal
  rw [wrapInt_of_fits (x := a2 - a1) (by omega) (by omega),
    wrapInt_of_fits (x := b2 - b1) (by omega) (by omega),
    wrapInt_of_fits (x := c2 - c1) (by omega) (by omega),
    wrapInt_of_fits (x := d2 - d1) (by omega) (by omega),
    wrapInt_of_fits (x := a2 - a1 + 1) (by omega) h1,
    wrapInt_of_fits (x := b2 - b1 + 1) (by omega) h1b,
    wrapInt_of_fits (x := c2 - c1 + 1) (by omega) h1c,
    wrapInt_of_fits (x := d2 - d1 + 1) (by omega) h1d,
    wrapInt_of_fits (by omega) h2, wrapInt_of_fits (by omega) h3,
    wrapInt_of_fits (by omega) hprod]

theorem addresses_eq_map (a1 a2 b1 b2 c1 c2 d1 d2 : Int) :
    addresses a1 a2 b1 b2 c1 c2 d1 d2
      = (crossProduct a1 a2 b1 b2 c1 c2 d1 d2).map renderAddr := by
  simp [addresses, crossProduct, renderAddr, List.map_flatMap, Function.comp_def]

theorem parseRange_ok_of_bounds {s : Str} {a1 a2 b1 b2 c1 c2 d1 d2 : Int} {fuel : Nat}
    (hb : descriptorBounds s = some [(a1, a2), (b1, b2), (c1, c2), (d1, d2)])
    (ha : a1 ≤ a2) (ha2 : a2 < maxInt) (hfa : (a2 + 1 - a1).toNat < fuel)
    (hb' : b1 ≤ b2) (hb2 : b2 < maxInt) (hfb : (b2 + 1 - b1).toNat < fuel)
    (hc : c1 ≤ c2) (hc2 : c2 < maxInt) (hfc : (c2 + 1 - c1).toNat < fuel)
    (hd : d1 ≤ d2) (hd2 : d2 < maxInt) (hfd : (d2 + 1 - d1).toNat < fuel)
    (hprod : (a2 - a1 + 1) * (b2 - b1 + 1) * (c2 - c1 + 1) * (d2 - d1 + 1) ≤ sureChanCap) :
    parseRange s fuel = .ok
      { ips := { buf := addresses a1 a2 b1 b2 c1 c2 d1 d2,
                 cap := ((a2 - a1 + 1) * (b2 - b1 + 1) * (c2 - c1 + 1) * (d2 - d1 + 1)).toNat },
        total := (a2 - a1 + 1) * (b2 - b1 + 1) * (c2 - c1 + 1) * (d2 - d1 + 1) } := by
  obtain ⟨p, q, r, t, hs, hp, hq, hr, ht⟩ := split_of_descriptorBounds hb
  have hcap : sureChanCap ≤ maxInt := by unfold sureChanCap maxInt; omega
  rw [parseRange_eq hs (readsAs_of_componentBounds hp) (readsAs_of_componentBounds hq)
    (readsAs_of_componentBounds hr) (readsAs_of_componentBounds ht) ha2 hfa hb2 hfb hc2 hfc
    hd2 hfd, rangeTotal_eq ha hb' hc hd (le_trans hprod hcap)]
  obtain ⟨A, hA⟩ : ∃ A : Nat, a2 - a1 + 1 = (A : Int) := ⟨(a2 - a1 + 1).toNat, by omega⟩
  obtain ⟨B, hB⟩ : ∃ B : Nat, b2 - b1 + 1 = (B : Int) := ⟨(b2 - b1 + 1).toNat, by omega⟩
  obtain ⟨C, hC⟩ : ∃ C : Nat, c2 - c1 + 1 = (C : Int) := ⟨(c2 - c1 + 1).toNat, by omega⟩
  obtain ⟨D, hD⟩ : ∃ D : Nat, d2 - d1 + 1 = (D : Int) := ⟨(d2 - d1 + 1).toNat, by omega⟩
  have hlen : (addresses a1 a2 b1 b2 c1 c2 d1 d2).length = A * B * C * D := by
    rw [length_addresses]
    have e1 : (a2 + 1 - a1).toNat = A := by omega
    have e2 : (b2 + 1 - b1).toNat = B := by omega
    have e3 : (c2 + 1 - c1).toNat = C := by omega
    have e4 : (d2 + 1 - d1).toNat = D := by omega
    rw [e1, e2, e3, e4]
    ring
  rw [hA, hB, hC, hD] at hprod ⊢
  have hnat : ((A : Int) * B * C * D) = ((A * B * C * D : Nat) : Int) := by push_cast; ring
  rw [hnat] at hprod ⊢
  have hmk : makeChan ((A * B * C * D : Nat) : Int)
      = .ok { buf := [], cap := A * B * C * D } := by
    unfold makeChan
    rw [if_neg (by omega), if_pos hprod, Int.toNat_ofNat]
  rw [hmk]
  simp only [Outcome.bind, Int.toNat_ofNat]
  rw [sendAll_ok _ _ (by simp [hlen])]
  simp [Outcome.bind]

theorem pairwise_interval (lo hi : Int) : (interval lo hi).Pairwise (· < ·) := by
  unfold interval
  rw [List.pairwise_map]
  exact (List.pairwise_lt_range _).imp (by intro a b h; omega)

theorem mem_crossProduct {a1 a2 b1 b2 c1 c2 d1 d2 : Int} {t : Int × Int × Int × Int} :
    t ∈ crossProduct a1 a2 b1 b2 c1 c2 d1 d2 ↔
      (a1 ≤ t.1 ∧ t.1 ≤ a2) ∧ (b1 ≤ t.2.1 ∧ t.2.1 ≤ b2) ∧
      (c1 ≤ t.2.2.1 ∧ t.2.2.1 ≤ c2) ∧ (d1 ≤ t.2.2.2 ∧ t.2.2.2 ≤ d2) := by
  obtain ⟨a, b, c, d⟩ := t
  simp only [crossProduct, List.mem_flatMap, List.mem_map, mem_interval, Prod.mk.injEq]
  constructor
  · rintro ⟨a', ha, b', hb, c', hc, d', hd, rfl, rfl, rfl, rfl⟩
    exact ⟨ha, hb, hc, hd⟩
  · rintro ⟨ha, hb, hc, hd⟩
    exact ⟨a, ha, b, hb, c, hc, d, hd, rfl, rfl, rfl, rfl⟩

theorem pairwise_crossProduct (a1 a2 b1 b2 c1 c2 d1 d2 : Int) :
    (crossProduct a1 a2 b1 b2 c1 c2 d1 d2).Pairwise LexLt := by
  unfold crossProduct
  rw [List.pairwise_flatMap]
  refine ⟨fun a _ => ?_, (pairwise_interval a1 a2).imp ?_⟩
  · rw [List.pairwise_flatMap]
    refine ⟨fun b _ => ?_, (pairwise_interval b1 b2).imp ?_⟩
    · rw [List.pairwise_flatMap]
      refine ⟨fun c _ => ?_, (pairwise_interval c1 c2).imp ?_⟩
      · rw [List.pairwise_map]
        refine (pairwise_interval d1 d2).imp ?_
        intro d d' h
        simp [LexLt, h]
      · intro c c' h x hx y hy
        simp only [List.mem_map] at hx hy
        obtain ⟨d, _, rfl⟩ := hx
        obtain ⟨d', _, rfl⟩ := hy
        simp [LexLt, h]
    · intro b b' h x hx y hy
      simp only [List.mem_flatMap, List.mem_map] at hx hy
      obtain ⟨c, _, d, _, rfl⟩ := hx
      obtain ⟨c', _, d', _, rfl⟩ := hy
      simp [LexLt, h]
  · intro a a' h x hx y hy
    simp only [List.mem_flatMap, List.mem_map] at hx hy
    obtain ⟨b, _, c, _, d, _, rfl⟩ := hx
    obtain ⟨b', _, c', _, d', _, rfl⟩ := hy
    simp [LexLt, h]

theorem length_addresses_int {a1 a2 b1 b2 c1 c2 d1 d2 : Int}
    (ha : a1 ≤ a2) (hb : b1 ≤ b2) (hc : c1 ≤ c2) (hd : d1 ≤ d2) :
    ((addresses a1 a2 b1 b2 c1 c2 d1 d2).length : Int)
      = (a2 - a1 + 1) * (b2 - b1 + 1) * (c2 - c1 + 1) * (d2 - d1 + 1) := by
  rw [length_addresses]
  push_cast
  rw [Int.toNat_of_nonneg (by omega), Int.toNat_of_nonneg (by omega),
    Int.toNat_of_nonneg (by omega), Int.toNat_of_nonneg (by omega)]
  ring

theorem octet_product_le {A B C D : Int} (hA : A ≤ 256) (hB0 : 1 ≤ B) (hB : B ≤ 256)
    (hC0 : 1 ≤ C) (hC : C ≤ 256) (hD0 : 1 ≤ D) (hD : D ≤ 256) :
    A * B * C * D ≤ sureChanCap := by
  have h1 : A * B ≤ 256 * 256 := mul_le_mul hA hB (by omega) (by omega)
  have h2 : A * B * C ≤ 256 * 256 * 256 :=
    mul_le_mul h1 hC (by omega) (by omega)
  have h3 : A * B * C * D ≤ 256 * 256 * 256 * 256 :=
    mul_le_mul h2 hD (by omega) (by omega)
  unfold sureChanCap
  omega

theorem digitVal_digitChar {d : Nat} (h : d < 10) : digitVal (Nat.digitChar d) = some d := by
  interval_cases d <;> decide

theorem parseDigits_append (xs ys : Str) (acc : Nat) :
    parseDigits (xs ++ ys) acc = (parseDigits xs acc).bind (parseDigits ys) := by
  induction xs generalizing acc with
  | nil => rfl
  | cons c cs ih =>
    simp only [List.cons_append, parseDigits]
    cases digitVal c with
    | none => rfl
    | some d => exact ih _

theorem toDigitsCore_spec (fuel : Nat) : ∀ (n : Nat) (ds : Str), n < fuel →
    ∃ pre : Str, Nat.toDigitsCore 10 fuel n ds = pre ++ ds ∧ pre ≠ [] ∧
      (∀ c ∈ pre, (digitVal c).isSome) ∧
      ∀ acc, parseDigits pre acc = some (acc * 10 ^ pre.length + n) := by
  induction fuel with
  | zero => intro n ds h; omega
  | succ f ih =>
    intro n ds hn
    have hd : digitVal (Nat.digitChar (n % 10)) = some (n % 10) :=
      digitVal_digitChar (Nat.mod_lt _ (by decide))
    by_cases h0 : n / 10 = 0
    · refine ⟨[Nat.digitChar (n % 10)], ?_, by simp, ?_, ?_⟩
      · simp [Nat.toDigitsCore, h0]
      · intro c hc
        simp only [List.mem_singleton] at hc
        simp [hc, hd]
      · intro acc
        have hmod : n % 10 = n := by omega
        simp only [parseDigits, hd, List.length_singleton, pow_one]
        rw [hmod]
    · obtain ⟨pre, hpre, _, hdig, hval⟩ := ih (n / 10) (Nat.digitChar (n % 10) :: ds) (by omega)
      refine ⟨pre ++ [Nat.digitChar (n % 10)], ?_, by simp, ?_, ?_⟩
      · simp [Nat.toDigitsCore, h0, hpre]
      · intro c hc
        rcases List.mem_append.1 hc with h | h
        · exact hdig c h
        · simp only [List.mem_singleton] at h
          simp [h, hd]
      · intro acc
        rw [parseDigits_append, hval]
        simp only [Option.some_bind, parseDigits, hd, List.length_append, List.length_singleton,
          Option.some.injEq]
        rw [pow_succ]
        have := Nat.div_add_mod n 10
        nlinarith [this]

theorem parseDigits_toDigits (n : Nat) : parseDigits (Nat.toDigits 10 n) 0 = some n := by
  obtain ⟨pre, hpre, _, _, hval⟩ := toDigitsCore_spec (n + 1) n [] (by omega)
  unfold Nat.toDigits
  rw [hpre, List.append_nil, hval]
  simp

theorem toDigits_ne_nil (n : Nat) : Nat.toDigits 10 n ≠ [] := by
  obtain ⟨pre, hpre, hne, _, _⟩ := toDigitsCore_spec (n + 1) n [] (by omega)
  unfold Nat.toDigits
  rw [hpre, List.append_nil]
  exact hne

theorem digit_of_mem_toDigits {n : Nat} {c : Char} (h : c ∈ Nat.toDigits 10 n) :
    (digitVal c).isSome := by
  obtain ⟨pre, hpre, _, hdig, _⟩ := toDigitsCore_spec (n + 1) n [] (by omega)
  unfold Nat.toDigits at h
  rw [hpre, List.append_nil] at h
  exact hdig c h

theorem dot_not_mem_fmtInt (x : Int) : '.' ∉ fmtInt x := by
  unfold fmtInt
  intro h
  split at h
  · rcases List.mem_cons.1 h with h | h
    · exact absurd h (by decide)
    · exact absurd (digit_of_mem_toDigits h) (by decide)
  · exact absurd (digit_of_mem_toDigits h) (by decide)

theorem fmtInt_inj {x y : Int} (hx : 0 ≤ x) (hy : 0 ≤ y) (h : fmtInt x = fmtInt y) : x = y := by
  unfold fmtInt at h
  rw [if_neg (by omega), if_neg (by omega)] at h
  have h1 := parseDigits_toDigits x.toNat
  rw [h, parseDigits_toDigits] at h1
  simp only [Option.some.injEq] at h1
  omega

theorem stringsSplit_of_not_mem {sep : Char} {x : Str} (h : sep ∉ x) :
    stringsSplit sep x = [x] := by
  induction x with
  | nil => rfl
  | cons c cs ih =>
    simp only [List.mem_cons, not_or] at h
    simp only [stringsSplit, if_neg (Ne.symm h.1), ih h.2]

theorem stringsSplit_append_sep {sep : Char} {x : Str} (rest : Str) (h : sep ∉ x) :
    stringsSplit sep (x ++ sep :: rest) = x :: stringsSplit sep rest := by
  induction x with
  | nil => simp [stringsSplit]
  | cons c cs ih =>
    simp only [List.mem_cons, not_or] at h
    rw [List.cons_append]
    simp only [stringsSplit, if_neg (Ne.symm h.1), ih h.2]

theorem stringsSplit_sprintfAddr (a b c d : Int) :
    stringsSplit '.' (sprintfAddr a b c d) = [fmtInt a, fmtInt b, fmtInt c, fmtInt d] := by
  unfold sprintfAddr
  rw [stringsSplit_append_sep _ (dot_not_mem_fmtInt a),
    stringsSplit_append_sep _ (dot_not_mem_fmtInt b),
    stringsSplit_append_sep _ (dot_not_mem_fmtInt c),
    stringsSplit_of_not_mem (dot_not_mem_fmtInt d)]

theorem renderAddr_inj {s t : Int × Int × Int × Int}
    (hs : 0 ≤ s.1 ∧ 0 ≤ s.2.1 ∧ 0 ≤ s.2.2.1 ∧ 0 ≤ s.2.2.2)
    (ht : 0 ≤ t.1 ∧ 0 ≤ t.2.1 ∧ 0 ≤ t.2.2.1 ∧ 0 ≤ t.2.2.2)
    (h : renderAddr s = renderAddr t) : s = t := by
  obtain ⟨a, b, c, d⟩ := s
  obtain ⟨a', b', c', d'⟩ := t
  have h2 := congrArg (stringsSplit '.') h
  simp only [renderAddr, stringsSplit_sprintfAddr, List.cons.injEq, and_true] at h2
  obtain ⟨e1, e2, e3, e4⟩ := h2
  obtain ⟨p1, p2, p3, p4⟩ := hs
  obtain ⟨q1, q2, q3, q4⟩ := ht
  dsimp only at p1 p2 p3 p4 q1 q2 q3 q4
  rw [fmtInt_inj p1 q1 e1, fmtInt_inj p2 q2 e2, fmtInt_inj p3 q3 e3, fmtInt_inj p4 q4 e4]

theorem nodup_rendered_crossProduct {a1 a2 b1 b2 c1 c2 d1 d2 : Int}
    (ha : 0 ≤ a1) (hb : 0 ≤ b1) (hc : 0 ≤ c1) (hd : 0 ≤ d1) :
    ((crossProduct a1 a2 b1 b2 c1 c2 d1 d2).map renderAddr).Nodup := by
  have hnd : (crossProduct a1 a2 b1 b2 c1 c2 d1 d2).Nodup :=
    (pairwise_crossProduct a1 a2 b1 b2 c1 c2 d1 d2).imp (by
      intro s t hlt heq
      subst heq
      simp [LexLt] at hlt)
  refine List.Nodup.map_on ?_ hnd
  intro s hs t ht h
  rw [mem_crossProduct] at hs ht
  exact renderAddr_inj ⟨by omega, by omega, by omega, by omega⟩
    ⟨by omega, by omega, by omega, by omega⟩ h

theorem addresses_eq_nil_of_inverted {a1 a2 b1 b2 c1 c2 d1 d2 : Int}
    (h : a2 < a1 ∨ b2 < b1 ∨ c2 < c1 ∨ d2 < d1) : addresses a1 a2 b1 b2 c1 c2 d1 d2 = [] := by
  unfold addresses
  rcases h with h | h | h | h <;> simp [interval_empty h]

theorem factors_le_product {A B C D : Int} (hA : 1 ≤ A) (hB : 1 ≤ B) (hC : 1 ≤ C) (hD : 1 ≤ D) :
    A ≤ A * B * C * D ∧ B ≤ A * B * C * D ∧ C ≤ A * B * C * D ∧ D ≤ A * B * C * D := by
  have hAB : 1 ≤ A * B := one_le_mul_of_one_le_of_one_le hA hB
  have hABC : 1 ≤ A * B * C := one_le_mul_of_one_le_of_one_le hAB hC
  have h1 : A ≤ A * B := le_mul_of_one_le_right (by omega) hB
  have h2 : B ≤ A * B := le_mul_of_one_le_left (by omega) hA
  have h3 : A * B ≤ A * B * C := le_mul_of_one_le_right (by omega) hC
  have h4 : C ≤ A * B * C := le_mul_of_one_le_left (by omega) hAB
  have h5 : A * B * C ≤ A * B * C * D := le_mul_of_one_le_right (by omega) hD
  have h6 : D ≤ A * B * C * D := le_mul_of_one_le_left (by omega) hABC
  exact ⟨by omega, by omega, by omega, h6⟩

theorem parseRange_eq_of_inverted {s : Str} {a1 a2 b1 b2 c1 c2 d1 d2 : Int} {fuel : Nat}
    (hb : descriptorBounds s = some [(a1, a2), (b1, b2), (c1, c2), (d1, d2)])
    (hmax : a2 < maxInt ∧ b2 < maxInt ∧ c2 < maxInt ∧ d2 < maxInt)
    (hinv : a2 < a1 ∨ b2 < b1 ∨ c2 < c1 ∨ d2 < d1)
    (hcap : rangeTotal a1 a2 b1 b2 c1 c2 d1 d2 ≤ sureChanCap)
    (hf : (a2 + 1 - a1).toNat < fuel ∧ (b2 + 1 - b1).toNat < fuel ∧
      (c2 + 1 - c1).toNat < fuel ∧ (d2 + 1 - d1).toNat < fuel) :
    parseRange s fuel =
      if rangeTotal a1 a2 b1 b2 c1 c2 d1 d2 < 0 then .panic
      else .ok { ips := { buf := [], cap := (rangeTotal a1 a2 b1 b2 c1 c2 d1 d2).toNat },
                 total := rangeTotal a1 a2 b1 b2 c1 c2 d1 d2 } := by
  obtain ⟨p, q, r, t, hs, hp, hq, hr, ht⟩ := split_of_descriptorBounds hb
  rw [parseRange_eq hs (readsAs_of_componentBounds hp) (readsAs_of_componentBounds hq)
    (readsAs_of_componentBounds hr) (readsAs_of_componentBounds ht) hmax.1 hf.1 hmax.2.1 hf.2.1
    hmax.2.2.1 hf.2.2.1 hmax.2.2.2 hf.2.2.2, addresses_eq_nil_of_inverted hinv]
  unfold makeChan
  by_cases hc : rangeTotal a1 a2 b1 b2 c1 c2 d1 d2 < 0
  · rw [if_pos hc, if_pos hc]
    rfl
  · rw [if_neg hc, if_neg hc, if_pos hcap]
    rfl

theorem bind_eq_exit {α β : Type} {o : Outcome α} {f : α → Outcome β} {m : ExitMsg}
    (h : o.bind f = .exit m) : o = .exit m ∨ ∃ v, o = .ok v ∧ f v = .exit m := by
  cases o with
  | ok v => exact Or.inr ⟨v, rfl, h⟩
  | exit m' =>
    simp only [Outcome.bind, Outcome.exit.injEq] at h
    exact Or.inl (by rw [h])
  | panic => cases h
  | blocked => cases h
  | outOfFuel => cases h
  | unspecified => cases h

theorem makeChan_ne_exit (size : Int) (m : ExitMsg) : makeChan size ≠ .exit m := by
  unfold makeChan
  split_ifs <;> exact fun h => Outcome.noConfusion h

theorem forLoop_ne_exit {σ : Type} (body : Int → σ → Outcome σ) (hi : Int)
    (hbody : ∀ i s m, body i s ≠ .exit m) :
    ∀ (fuel : Nat) (lo : Int) (s : σ) (m : ExitMsg), forLoop body hi fuel lo s ≠ .exit m := by
  intro fuel
  induction fuel with
  | zero => intro lo s m h; simp [forLoop] at h
  | succ n ih =>
    intro lo s m h
    rw [forLoop] at h
    by_cases hle : lo ≤ hi
    · rw [if_pos hle] at h
      cases hb : body lo s with
      | ok s' =>
        rw [hb] at h
        exact ih _ s' m h
      | exit m' => exact hbody lo s m' hb
      | panic => rw [hb] at h; cases h
      | blocked => rw [hb] at h; cases h
      | outOfFuel => rw [hb] at h; cases h
      | unspecified => rw [hb] at h; cases h
    · rw [if_neg hle] at h
      cases h

theorem fillIps_ne_exit (a1 a2 b1 b2 c1 c2 d1 d2 : Int) (fuel : Nat) (ips : Chan) (m : ExitMsg) :
    fillIps a1 a2 b1 b2 c1 c2 d1 d2 fuel ips ≠ .exit m := by
  unfold fillIps
  refine forLoop_ne_exit _ _ (fun a s m => ?_) _ _ _ _
  refine forLoop_ne_exit _ _ (fun b s m => ?_) _ _ _ _
  refine forLoop_ne_exit _ _ (fun c s m => ?_) _ _ _ _
  refine forLoop_ne_exit _ _ (fun d s m => ?_) _ _ _ _
  unfold Chan.send
  split_ifs <;> exact fun h => Outcome.noConfusion h

theorem parseComponents_cons_of_readsAs {each : Str} {lo hi : Int} (h : ReadsAs each lo hi)
    (rest : List Str) (i : Nat) (rangeList : List Int) :
    parseComponents (each :: rest) i rangeList
      = parseComponents rest (i + 1) ((rangeList.set (2 * i) lo).set (2 * i + 1) hi) := by
  obtain ⟨h1, h2⟩ := h
  rw [h1] at h2
  simp only [parseComponents, h1, h2]

theorem parseComponents_cons_of_unreadable {each : Str} (h : ¬ ∃ lo hi, ReadsAs each lo hi)
    (rest : List Str) (i : Nat) (rangeList : List Int) :
    parseComponents (each :: rest) i rangeList = .exit .atoiError := by
  rw [parseComponents]
  cases h1 : atoi ((stringsSplit '-' each).getD 0 []) with
  | none => rfl
  | some lo =>
    simp only
    cases h2 : (if (stringsSplit '-' each).length = 1 then some lo
        else atoi ((stringsSplit '-' each).getD 1 [])) with
    | none => rfl
    | some hi => exact absurd ⟨lo, hi, h1, by rw [h1]; exact h2⟩ h

/-- What parseRange rejects: it ends with an error message exactly when the
descriptor does not split on `.` into four components of which the first
dash-separated part, and the second when there is more than one, parse as
integers. -/
theorem parseRange_exit_iff (s : Str) (fuel : Nat) :
    (∃ m, parseRange s fuel = .exit m) ↔
      ¬ ∃ p q r t, stringsSplit '.' s = [p, q, r, t] ∧ (∃ lo hi, ReadsAs p lo hi) ∧
        (∃ lo hi, ReadsAs q lo hi) ∧ (∃ lo hi, ReadsAs r lo hi) ∧ (∃ lo hi, ReadsAs t lo hi) := by
  constructor
  · rintro ⟨m, hm⟩ ⟨p, q, r, t, hs, ⟨a1, a2, hp⟩, ⟨b1, b2, hq⟩, ⟨c1, c2, hr⟩, ⟨d1, d2, ht⟩⟩
    unfold parseRange at hm
    simp only [hs, parseComponents_four hp hq hr ht, Outcome.bind, List.length_cons,
      List.length_nil, Nat.reduceAdd, ne_eq, not_true_eq_false, if_false] at hm
    rcases bind_eq_exit hm with h1 | ⟨ips, _, h2⟩
    · exact makeChan_ne_exit _ _ h1
    · rcases bind_eq_exit h2 with h3 | ⟨v, _, h4⟩
      · exact fillIps_ne_exit _ _ _ _ _ _ _ _ _ _ _ h3
      · cases h4
  · intro h
    unfold parseRange
    by_cases hlen : (stringsSplit '.' s).length ≠ 4
    · exact ⟨.invalidRange, by rw [if_pos hlen]⟩
    · obtain ⟨p, q, r, t, hs⟩ : ∃ p q r t, stringsSplit '.' s = [p, q, r, t] := by
        match hl : stringsSplit '.' s with
        | [p, q, r, t] => exact ⟨p, q, r, t, rfl⟩
        | [] => simp [hl] at hlen
        | [_] => simp [hl] at hlen
        | [_, _] => simp [hl] at hlen
        | [_, _, _] => simp [hl] at hlen
        | _ :: _ :: _ :: _ :: _ :: _ => simp [hl] at hlen
      refine ⟨.atoiError, ?_⟩
      rw [if_neg hlen, hs]
      by_cases hp : ∃ lo hi, ReadsAs p lo hi
      · obtain ⟨a1, a2, hp⟩ := hp
        rw [parseComponents_cons_of_readsAs hp]
        by_cases hq : ∃ lo hi, ReadsAs q lo hi
        · obtain ⟨b1, b2, hq⟩ := hq
          rw [parseComponents_cons_of_readsAs hq]
          by_cases hr : ∃ lo hi, ReadsAs r lo hi
          · obtain ⟨c1, c2, hr⟩ := hr
            rw [parseComponents_cons_of_readsAs hr]
            by_cases ht : ∃ lo hi, ReadsAs t lo hi
            · exact absurd ⟨p, q, r, t, hs, ⟨a1, a2, hp⟩, ⟨b1, b2, hq⟩, ⟨c1, c2, hr⟩, ht⟩ h
            · rw [parseComponents_cons_of_unreadable ht]
              rfl
          · rw [parseComponents_cons_of_unreadable hr]
            rfl
        · rw [parseComponents_cons_of_unreadable hq]
          rfl
      · rw [parseComponents_cons_of_unreadable hp]
        rfl

theorem reportFrom_eq (len : Nat) (l : List Str) : ∀ i : Nat,
    reportFrom len i l = (l.take (25 - i)).map ReportLine.response ++
      (if i ≤ 26 ∧ 26 < i + l.length then [ReportLine.truncated ((len : Int) - 25)] else []) := by
  induction l with
  | nil => intro i; simp [reportFrom]
  | cons r rest ih =>
    intro i
    rw [reportFrom, ih (i + 1)]
    by_cases h1 : i < 25
    · obtain ⟨k, hk⟩ : ∃ k, 25 - i = k + 1 := ⟨24 - i, by omega⟩
      have hk2 : 25 - (i + 1) = k := by omega
      have hc : (i + 1 ≤ 26 ∧ 26 < i + 1 + rest.length) ↔
          (i ≤ 26 ∧ 26 < i + (r :: rest).length) := by
        simp only [List.length_cons]; omega
      simp only [h1, if_true, hk, hk2, List.take_succ_cons, List.map_cons, hc, List.cons_append,
        List.singleton_append, List.nil_append]
    · by_cases h2 : i = 26
      · subst h2
        simp
      · have hz : 25 - i = 0 := by omega
        have hz2 : 25 - (i + 1) = 0 := by omega
        have hc : (i + 1 ≤ 26 ∧ 26 < i + 1 + rest.length) ↔
            (i ≤ 26 ∧ 26 < i + (r :: rest).length) := by
          simp only [List.length_cons]; omega
        simp only [h1, h2, if_false, hz, hz2, List.take_zero, List.map_nil, hc, List.nil_append]

theorem printResponses_eq (l : List Str) :
    printResponses l = (l.take 25).map ReportLine.response ++
      (if 26 < l.length then [ReportLine.truncated ((l.length : Int) - 25)] else []) := by
  unfold printResponses
  rw [reportFrom_eq]
  simp

theorem drainResChan_eq (l : List Str) (csvString : Str) :
    drainResChan l csvString = ([], csvString ++ l.flatMap fun addr => addr ++ ['\n']) := by
  induction l generalizing csvString with
  | nil => simp [drainResChan]
  | cons addr rest ih => simp [drainResChan, ih]

theorem onRecv_done {w w' : World} {addrString reply : Str}
    (h : onRecv w addrString reply = .ok w') : w'.done = w.done := by
  unfold onRecv at h
  cases h1 : w.responses.send (responseMessage reply) with
  | ok responses =>
    cases h2 : w.resChan.send addrString with
    | ok resChan =>
      simp only [h1, h2, Outcome.bind, Outcome.ok.injEq] at h
      rw [← h]
    | _ => simp [h1, h2, Outcome.bind] at h
  | _ => simp [h1, Outcome.bind] at h

theorem onIdle_done {w w' : World} {addrString : Str}
    (h : onIdle w addrString = .ok w') : w'.done = w.done := by
  unfold onIdle at h
  cases h1 : w.idles.send (idleMessage addrString) with
  | ok idles =>
    simp only [h1, Outcome.bind, Outcome.ok.injEq] at h
    rw [← h]
  | _ => simp [h1, Outcome.bind] at h

theorem pingerRun_done {w w' : World} {addrString : Str} {reply : Option Str}
    (h : pingerRun w addrString reply = .ok w') : w'.done = w.done := by
  unfold pingerRun at h
  cases reply with
  | none =>
    simp only [Outcome.bind] at h
    exact onIdle_done h
  | some text =>
    simp only at h
    cases hr : onRecv w addrString text with
    | ok w1 =>
      rw [hr] at h
      simp only [Outcome.bind] at h
      rw [onIdle_done h, onRecv_done hr]
    | _ => simp [hr, Outcome.bind] at h

theorem runPings_not_ok_of_not_done (probe : Str → Probe) :
    ∀ (fuel : Nat) (w w' : World), w.done = false → runPings probe fuel w ≠ .ok w' := by
  intro fuel
  induction fuel with
  | zero => intro w w' _ h; simp [runPings] at h
  | succ n ih =>
    intro w w' hdone h
    rw [runPings, if_neg (by simp [hdone])] at h
    cases hbuf : w.ips.buf with
    | nil => simp [hbuf] at h
    | cons addrString rest =>
      simp only [hbuf] at h
      cases hp : probe addrString with
      | resolveFails => simp [hp] at h
      | runFails => simp [hp] at h
      | finished reply =>
        simp only [hp] at h
        cases hr : pingerRun { w with ips := { w.ips with buf := rest } } addrString reply with
        | ok w2 =>
          rw [hr] at h
          simp only [Outcome.bind] at h
          exact ih w2 w' (by rw [pingerRun_done hr]; exact hdone) h
        | _ => simp [hr, Outcome.bind] at h

theorem atoi_toDigits {n : Nat} (hn : (n : Int) ≤ maxInt) :
    atoi (Nat.toDigits 10 n) = some (n : Int) := by
  have hval := parseDigits_toDigits n
  have hdig : ∀ c ∈ Nat.toDigits 10 n, (digitVal c).isSome := fun c hc => digit_of_mem_toDigits hc
  cases hl : Nat.toDigits 10 n with
  | nil => exact absurd hl (toDigits_ne_nil n)
  | cons c cs =>
    rw [hl] at hval hdig
    have hc := hdig c (List.mem_cons_self c cs)
    have hminus : c ≠ '-' := by
      intro h
      rw [h] at hc
      exact absurd hc (by decide)
    have hplus : c ≠ '+' := by
      intro h
      rw [h] at hc
      exact absurd hc (by decide)
    have hmin : minInt ≤ (n : Int) := by
      have : minInt = -(2 ^ 63) := rfl
      omega
    unfold atoi
    split
    · rename_i r heq
      exact absurd (List.cons.inj heq).1 hminus
    · rename_i r heq
      exact absurd (List.cons.inj heq).1 hplus
    · simp only [hval, Bool.false_eq_true, if_false, hmin, hn, and_self, if_true]

theorem dash_not_mem_toDigits (n : Nat) : '-' ∉ Nat.toDigits 10 n :=
  fun h => absurd (digit_of_mem_toDigits h) (by decide)

theorem dot_not_mem_toDigits (n : Nat) : '.' ∉ Nat.toDigits 10 n :=
  fun h => absurd (digit_of_mem_toDigits h) (by decide)

theorem dot_not_mem_text (p : Component) : '.' ∉ p.text := by
  cases p with
  | single v => exact dot_not_mem_toDigits v
  | pair lo hi =>
    intro h
    simp only [Component.text, List.mem_append, List.mem_cons] at h
    rcases h with h | h | h
    · exact dot_not_mem_toDigits lo h
    · exact absurd h (by decide)
    · exact dot_not_mem_toDigits hi h

theorem componentBounds_text (p : Component) (hlo : p.lo ≤ maxInt) (hhi : p.hi ≤ maxInt) :
    componentBounds p.text = some (p.lo, p.hi) := by
  cases p with
  | single v =>
    simp only [Component.lo] at hlo
    simp only [componentBounds, Component.text, stringsSplit_of_not_mem (dash_not_mem_toDigits v),
      atoi_toDigits hlo, Component.lo, Component.hi]
  | pair lo hi =>
    simp only [Component.lo] at hlo
    simp only [Component.hi] at hhi
    simp only [componentBounds, Component.text,
      stringsSplit_append_sep _ (dash_not_mem_toDigits lo),
      stringsSplit_of_not_mem (dash_not_mem_toDigits hi), atoi_toDigits hlo, atoi_toDigits hhi,
      Component.lo, Component.hi]

/-- Every descriptor written as four components `v` or `lo-hi` in decimal,
with `0 ≤ lo ≤ hi ≤ 255` in each, is a valid descriptor with these bounds. -/
theorem validDescriptor_descriptorText (p q r t : Component)
    (hp : p.lo ≤ p.hi ∧ p.hi ≤ 255) (hq : q.lo ≤ q.hi ∧ q.hi ≤ 255)
    (hr : r.lo ≤ r.hi ∧ r.hi ≤ 255) (ht : t.lo ≤ t.hi ∧ t.hi ≤ 255) :
    ValidDescriptor (descriptorText p q r t) p.lo p.hi q.lo q.hi r.lo r.hi t.lo t.hi := by
  have hmax : maxInt = 2 ^ 63 - 1 := rfl
  have h0 : ∀ c : Component, 0 ≤ c.lo := by
    intro c
    cases c <;> simp [Component.lo]
  refine ⟨?_, ⟨h0 p, hp.1, hp.2⟩, ⟨h0 q, hq.1, hq.2⟩, ⟨h0 r, hr.1, hr.2⟩, ⟨h0 t, ht.1, ht.2⟩⟩
  unfold descriptorBounds descriptorText
  rw [stringsSplit_append_sep _ (dot_not_mem_text p), stringsSplit_append_sep _ (dot_not_mem_text q),
    stringsSplit_append_sep _ (dot_not_mem_text r), stringsSplit_of_not_mem (dot_not_mem_text t)]
  simp only [componentBounds_text p (by omega) (by omega),
    componentBounds_text q (by omega) (by omega), componentBounds_text r (by omega) (by omega),
    componentBounds_text t (by omega) (by omega)]

/-! ## Claims on parseRange -/

/-- C1: for every valid range descriptor (four dot-separated components,
each a value or a pair `lo-hi` with `0 ≤ lo ≤ hi ≤ 255`) parseRange returns,
sets `total` to the product of the four interval sizes `hi - lo + 1`, and the
number of address strings in the returned channel equals `total`, which is
also the capacity of the channel. -/
theorem parseRange_total_eq_enumerated (s : Str) (a1 a2 b1 b2 c1 c2 d1 d2 : Int)
    (hv : ValidDescriptor s a1 a2 b1 b2 c1 c2 d1 d2) (fuel : Nat) (hf : 257 ≤ fuel) :
    ∃ ips : Chan,
      parseRange s fuel = .ok
        { ips := ips, total := (a2 - a1 + 1) * (b2 - b1 + 1) * (c2 - c1 + 1) * (d2 - d1 + 1) } ∧
      (ips.buf.length : Int) = (a2 - a1 + 1) * (b2 - b1 + 1) * (c2 - c1 + 1) * (d2 - d1 + 1) ∧
      (ips.cap : Int) = (a2 - a1 + 1) * (b2 - b1 + 1) * (c2 - c1 + 1) * (d2 - d1 + 1) := by
  obtain ⟨hb, ⟨ha0, ha, ha2⟩, ⟨hb0, hb', hb2⟩, ⟨hc0, hc, hc2⟩, ⟨hd0, hd, hd2⟩⟩ := hv
  have hmax : maxInt = 2 ^ 63 - 1 := rfl
  have hprod := octet_product_le (A := a2 - a1 + 1) (B := b2 - b1 + 1) (C := c2 - c1 + 1)
    (D := d2 - d1 + 1) (by omega) (by omega) (by omega) (by omega) (by omega) (by omega)
    (by omega)
  refine ⟨_, parseRange_ok_of_bounds hb ha (by omega) (by omega) hb' (by omega) (by omega)
    hc (by omega) (by omega) hd (by omega) (by omega) hprod, ?_, ?_⟩
  · exact length_addresses_int ha hb' hc hd
  · have h1 : (1 : Int) ≤ (a2 - a1 + 1) * (b2 - b1 + 1) :=
      one_le_mul_of_one_le_of_one_le (by omega) (by omega)
    have h2 : (1 : Int) ≤ (a2 - a1 + 1) * (b2 - b1 + 1) * (c2 - c1 + 1) :=
      one_le_mul_of_one_le_of_one_le h1 (by omega)
    have h3 : (1 : Int) ≤ (a2 - a1 + 1) * (b2 - b1 + 1) * (c2 - c1 + 1) * (d2 - d1 + 1) :=
      one_le_mul_of_one_le_of_one_le h2 (by omega)
    exact Int.toNat_of_nonneg (by omega)

/-- The degenerate descriptor `5.5.5.5` is valid and yields
`total == 1` with one address in a channel of capacity 1. -/
theorem parseRange_total_eq_enumerated_witness :
    ValidDescriptor "5.5.5.5".toList 5 5 5 5 5 5 5 5 ∧
    ∃ ips : Chan,
      parseRange "5.5.5.5".toList 257 = .ok { ips := ips, total := 1 } ∧
      (ips.buf.length : Int) = 1 ∧ (ips.cap : Int) = 1 :=
  ⟨by decide,
    parseRange_total_eq_enumerated "5.5.5.5".toList 5 5 5 5 5 5 5 5 (by decide) 257 (by decide)⟩

/-- C2: for every valid range descriptor parseRange returns with the
channel holding exactly the cross product of the four intervals, each tuple
rendered as `a.b.c.d` in decimal, in strictly ascending lexicographic order
of `(a, b, c, d)` with the first component outermost and the last
innermost, and no address string occurs twice. -/
theorem parseRange_enumerates_cross_product (s : Str) (a1 a2 b1 b2 c1 c2 d1 d2 : Int)
    (hv : ValidDescriptor s a1 a2 b1 b2 c1 c2 d1 d2) (fuel : Nat) (hf : 257 ≤ fuel) :
    parseRange s fuel = .ok
      { ips := { buf := (crossProduct a1 a2 b1 b2 c1 c2 d1 d2).map renderAddr,
                 cap := ((a2 - a1 + 1) * (b2 - b1 + 1) * (c2 - c1 + 1) * (d2 - d1 + 1)).toNat },
        total := (a2 - a1 + 1) * (b2 - b1 + 1) * (c2 - c1 + 1) * (d2 - d1 + 1) } ∧
    (∀ t : Int × Int × Int × Int, t ∈ crossProduct a1 a2 b1 b2 c1 c2 d1 d2 ↔
      (a1 ≤ t.1 ∧ t.1 ≤ a2) ∧ (b1 ≤ t.2.1 ∧ t.2.1 ≤ b2) ∧
      (c1 ≤ t.2.2.1 ∧ t.2.2.1 ≤ c2) ∧ (d1 ≤ t.2.2.2 ∧ t.2.2.2 ≤ d2)) ∧
    (crossProduct a1 a2 b1 b2 c1 c2 d1 d2).Pairwise LexLt ∧
    ((crossProduct a1 a2 b1 b2 c1 c2 d1 d2).map renderAddr).Nodup := by
  obtain ⟨hb, ⟨ha0, ha, ha2⟩, ⟨hb0, hb', hb2⟩, ⟨hc0, hc, hc2⟩, ⟨hd0, hd, hd2⟩⟩ := hv
  have hmax : maxInt = 2 ^ 63 - 1 := rfl
  have hprod := octet_product_le (A := a2 - a1 + 1) (B := b2 - b1 + 1) (C := c2 - c1 + 1)
    (D := d2 - d1 + 1) (by omega) (by omega) (by omega) (by omega) (by omega) (by omega)
    (by omega)
  refine ⟨?_, fun t => mem_crossProduct, pairwise_crossProduct _ _ _ _ _ _ _ _,
    nodup_rendered_crossProduct ha0 hb0 hc0 hd0⟩
  rw [← addresses_eq_map]
  exact parseRange_ok_of_bounds hb ha (by omega) (by omega) hb' (by omega) (by omega)
    hc (by omega) (by omega) hd (by omega) (by omega) hprod

/-- The descriptor `10-10.0-0.0-1.0-1` is valid and yields
10.0.0.0, 10.0.0.1, 10.0.1.0, 10.0.1.1 in this order with `total == 4`. -/
theorem parseRange_enumerates_cross_product_witness :
    ValidDescriptor "10-10.0-0.0-1.0-1".toList 10 10 0 0 0 1 0 1 ∧
    parseRange "10-10.0-0.0-1.0-1".toList 257 = .ok
      { ips := { buf := ["10.0.0.0".toList, "10.0.0.1".toList, "10.0.1.0".toList,
                         "10.0.1.1".toList],
                 cap := 4 },
        total := 4 } :=
  ⟨by decide,
    (parseRange_enumerates_cross_product "10-10.0-0.0-1.0-1".toList 10 10 0 0 0 1 0 1
      (by decide) 257 (by decide)).1⟩

/-- C3, as the code behaves: parseRange does not compare the bounds with
255. For every descriptor of four components, each a value or a pair
`lo-hi` of integers with `lo ≤ hi < 2^63 - 1`, in which some bound exceeds
255, and whose product of interval sizes is at most `2^32` (the capacity of
the full range `0-255.0-255.0-255.0-255`), parseRange returns with `total`
that product and the channel holding the rendered cross product in order. -/
theorem parseRange_enumerates_beyond_255 (s : Str) (a1 a2 b1 b2 c1 c2 d1 d2 : Int)
    (hb : descriptorBounds s = some [(a1, a2), (b1, b2), (c1, c2), (d1, d2)])
    (ha : a1 ≤ a2 ∧ a2 < maxInt) (hb' : b1 ≤ b2 ∧ b2 < maxInt)
    (hc : c1 ≤ c2 ∧ c2 < maxInt) (hd : d1 ≤ d2 ∧ d2 < maxInt)
    (_hout : 255 < a2 ∨ 255 < b2 ∨ 255 < c2 ∨ 255 < d2)
    (hprod : (a2 - a1 + 1) * (b2 - b1 + 1) * (c2 - c1 + 1) * (d2 - d1 + 1) ≤ sureChanCap)
    (fuel : Nat)
    (hf : (a2 - a1 + 1) * (b2 - b1 + 1) * (c2 - c1 + 1) * (d2 - d1 + 1) < (fuel : Int)) :
    parseRange s fuel = .ok
      { ips := { buf := (crossProduct a1 a2 b1 b2 c1 c2 d1 d2).map renderAddr,
                 cap := ((a2 - a1 + 1) * (b2 - b1 + 1) * (c2 - c1 + 1) * (d2 - d1 + 1)).toNat },
        total := (a2 - a1 + 1) * (b2 - b1 + 1) * (c2 - c1 + 1) * (d2 - d1 + 1) } := by
  obtain ⟨f1, f2, f3, f4⟩ := factors_le_product (A := a2 - a1 + 1) (B := b2 - b1 + 1)
    (C := c2 - c1 + 1) (D := d2 - d1 + 1) (by omega) (by omega) (by omega) (by omega)
  rw [← addresses_eq_map]
  exact parseRange_ok_of_bounds hb ha.1 ha.2 (by omega) hb'.1 hb'.2 (by omega)
    hc.1 hc.2 (by omega) hd.1 hd.2 (by omega) hprod

/-- The descriptor `256.0.0.0` is enumerated as the single address 256.0.0.0. -/
theorem parseRange_enumerates_beyond_255_witness :
    parseRange "256.0.0.0".toList 2 = .ok
      { ips := { buf := ["256.0.0.0".toList], cap := 1 }, total := 1 } :=
  parseRange_enumerates_beyond_255 "256.0.0.0".toList 256 256 0 0 0 0 0 0 (by decide)
    (by decide) (by decide) (by decide) (by decide) (Or.inl (by decide)) (by decide) 2 (by decide)

/-- Out-of-range octets are not rejected: the descriptors `256.0.0.0` and
`0-300.0.0.0` have a bound outside `[0,255]`, yet parseRange does not fail:
it enumerates 256.0.0.0, respectively 301 addresses. -/
theorem parseRange_accepts_octet_above_255 :
    descriptorBounds "256.0.0.0".toList = some [(256, 256), (0, 0), (0, 0), (0, 0)] ∧
    parseRange "256.0.0.0".toList 2 = .ok
      { ips := { buf := ["256.0.0.0".toList], cap := 1 }, total := 1 } ∧
    (∀ (fuel : Nat) (m : ExitMsg), parseRange "256.0.0.0".toList fuel ≠ .exit m) ∧
    (∃ r : RangeResult, parseRange "0-300.0.0.0".toList 302 = .ok r ∧
      r.total = 301 ∧ r.ips.buf.length = 301) := by
  refine ⟨by decide, by decide, ?_, ?_⟩
  · intro fuel m
    match fuel with
    | 0 =>
      have h0 : parseRange "256.0.0.0".toList 0 = .outOfFuel := by decide
      rw [h0]
      exact fun h => Outcome.noConfusion h
    | 1 =>
      have h1 : parseRange "256.0.0.0".toList 1 = .outOfFuel := by decide
      rw [h1]
      exact fun h => Outcome.noConfusion h
    | n + 2 =>
      rw [@parseRange_ok_of_bounds "256.0.0.0".toList 256 256 0 0 0 0 0 0 (n + 2)
        (by decide) (by decide) (by decide)
        (by simp) (by decide) (by decide) (by simp) (by decide) (by decide) (by simp)
        (by decide) (by decide) (by simp) (by decide)]
      simp
  · refine ⟨_, @parseRange_ok_of_bounds "0-300.0.0.0".toList 0 300 0 0 0 0 0 0 302
      (by decide) (by decide)
      (by decide) (by decide) (by decide) (by decide) (by decide) (by decide) (by decide)
      (by decide) (by decide) (by decide) (by decide) (by decide), by decide, ?_⟩
    have h := @length_addresses_int 0 300 0 0 0 0 0 0 (by decide) (by decide) (by decide)
      (by decide)
    show (addresses 0 300 0 0 0 0 0 0).length = 301
    norm_num at h
    exact_mod_cast h

/-- C4 at its failing inputs: `1-2-3.0.0.0` and `1-2-x.0.0.0` have a
component of three dash-separated parts (the third not even a number in the
second descriptor), so they are not of the range format, yet parseRange
prints no error: it ignores every part after the second and enumerates
1.0.0.0 and 2.0.0.0 with `total == 2`. -/
theorem parseRange_ignores_third_part :
    descriptorBounds "1-2-3.0.0.0".toList = none ∧
    parseRange "1-2-3.0.0.0".toList 3 = .ok
      { ips := { buf := ["1.0.0.0".toList, "2.0.0.0".toList], cap := 2 }, total := 2 } ∧
    descriptorBounds "1-2-x.0.0.0".toList = none ∧
    parseRange "1-2-x.0.0.0".toList 3 = .ok
      { ips := { buf := ["1.0.0.0".toList, "2.0.0.0".toList], cap := 2 }, total := 2 } := by
  refine ⟨by decide, by decide, by decide, by decide⟩

/-- C5, as the code behaves: parseRange has no check for inverted
intervals. For every descriptor of four components, each a value or a pair
of integers below `2^63 - 1`, in which some interval is inverted (`hi < lo`)
and for which the product `total` of the four `hi - lo + 1`, computed in
`int` arithmetic, is at most `2^32`, parseRange prints no error and
enumerates no address: it panics in `make` when `total` is negative, and
otherwise returns an empty channel of capacity `total`. -/
theorem parseRange_inverted_not_rejected (s : Str) (a1 a2 b1 b2 c1 c2 d1 d2 : Int)
    (hb : descriptorBounds s = some [(a1, a2), (b1, b2), (c1, c2), (d1, d2)])
    (hmax : a2 < maxInt ∧ b2 < maxInt ∧ c2 < maxInt ∧ d2 < maxInt)
    (hinv : a2 < a1 ∨ b2 < b1 ∨ c2 < c1 ∨ d2 < d1)
    (hcap : rangeTotal a1 a2 b1 b2 c1 c2 d1 d2 ≤ sureChanCap)
    (fuel : Nat)
    (hf : (a2 + 1 - a1).toNat < fuel ∧ (b2 + 1 - b1).toNat < fuel ∧
      (c2 + 1 - c1).toNat < fuel ∧ (d2 + 1 - d1).toNat < fuel) :
    parseRange s fuel =
      if rangeTotal a1 a2 b1 b2 c1 c2 d1 d2 < 0 then .panic
      else .ok { ips := { buf := [], cap := (rangeTotal a1 a2 b1 b2 c1 c2 d1 d2).toNat },
                 total := rangeTotal a1 a2 b1 b2 c1 c2 d1 d2 } :=
  parseRange_eq_of_inverted hb hmax hinv hcap hf

/-- The inverted descriptor `2-0.2-0.0.0` gives an empty
channel of capacity 1 and `total == 1`. -/
theorem parseRange_inverted_not_rejected_witness :
    parseRange "2-0.2-0.0.0".toList 2 = .ok { ips := { buf := [], cap := 1 }, total := 1 } := by
  have h := parseRange_inverted_not_rejected "2-0.2-0.0.0".toList 2 0 2 0 0 0 0 0 (by decide)
    (by decide) (Or.inl (by decide)) (by decide) 2 (by decide)
  have h2 : rangeTotal 2 0 2 0 0 0 0 0 = 1 := by decide
  rw [h2, if_neg (by decide)] at h
  exact h

/-- Inverted intervals are not rejected: the descriptors `2-0.2-0.0.0`
and `5-1.0.0.0` are not rejected with an error: the first yields an empty
channel with `total == 1`, the second a panic of `make` (total is -3). -/
theorem parseRange_inverted_examples :
    descriptorBounds "2-0.2-0.0.0".toList = some [(2, 0), (2, 0), (0, 0), (0, 0)] ∧
    descriptorBounds "5-1.0.0.0".toList = some [(5, 1), (0, 0), (0, 0), (0, 0)] ∧
    parseRange "2-0.2-0.0.0".toList 1 = .ok { ips := { buf := [], cap := 1 }, total := 1 } ∧
    parseRange "5-1.0.0.0".toList 1 = .panic ∧
    rangeTotal 5 1 0 0 0 0 0 0 = -3 ∧
    (∀ (fuel : Nat) (m : ExitMsg), parseRange "2-0.2-0.0.0".toList fuel ≠ .exit m) ∧
    (∀ (fuel : Nat) (m : ExitMsg), parseRange "5-1.0.0.0".toList fuel ≠ .exit m) := by
  refine ⟨by decide, by decide, by decide, by decide, by decide, ?_, ?_⟩
  · intro fuel m
    match fuel with
    | 0 =>
      have h0 : parseRange "2-0.2-0.0.0".toList 0 = .outOfFuel := by decide
      rw [h0]
      exact fun h => Outcome.noConfusion h
    | 1 =>
      have h0 : parseRange "2-0.2-0.0.0".toList 1
          = .ok { ips := { buf := [], cap := 1 }, total := 1 } := by decide
      rw [h0]
      exact fun h => Outcome.noConfusion h
    | n + 2 =>
      rw [@parseRange_eq_of_inverted "2-0.2-0.0.0".toList 2 0 2 0 0 0 0 0 (n + 2) (by decide)
        (by decide) (Or.inl (by decide)) (by decide) (by simp)]
      have h2 : rangeTotal 2 0 2 0 0 0 0 0 = 1 := by decide
      rw [h2, if_neg (by decide)]
      exact fun h => Outcome.noConfusion h
  · intro fuel m
    match fuel with
    | 0 =>
      have h0 : parseRange "5-1.0.0.0".toList 0 = .panic := by decide
      rw [h0]
      exact fun h => Outcome.noConfusion h
    | 1 =>
      have h0 : parseRange "5-1.0.0.0".toList 1 = .panic := by decide
      rw [h0]
      exact fun h => Outcome.noConfusion h
    | n + 2 =>
      rw [@parseRange_eq_of_inverted "5-1.0.0.0".toList 5 1 0 0 0 0 0 0 (n + 2) (by decide)
        (by decide) (Or.inl (by decide)) (by decide) (by simp)]
      have h2 : rangeTotal 5 1 0 0 0 0 0 0 = -3 := by decide
      rw [h2, if_pos (by decide)]
      exact fun h => Outcome.noConfusion h

/-! ## Claims on the report, the output file, the flags and the workers -/

/-- C7 at its failing input: for every list of 26 responses the report of
main prints the first 25 entries and nothing else, so no truncation line
although one entry is left out; the loop prints the line at index 26, which
a list of 26 entries does not have. -/
theorem printResponses_26_entries (f : Nat → Str) :
    printResponses ((List.range 26).map f)
      = (List.range 25).map fun i => ReportLine.response (f i) := by
  rw [printResponses_eq]
  simp [List.range_succ, List.take]

/-- C8: for every sequence of addresses buffered in resChan, the content
writeFile stores in the output file (when `os.WriteFile` succeeds) is the
concatenation, in channel order, of each address followed by one newline
and nothing else, and resChan is empty afterwards. -/
theorem writeFile_content (env : FileEnv) (resChan : Chan) (hw : env.writeFileFails = false) :
    (writeFile env resChan).written = some (resChan.buf.flatMap fun addr => addr ++ ['\n']) ∧
    (writeFile env resChan).resChan.buf = [] := by
  unfold writeFile
  simp only [drainResChan_eq, hw, List.nil_append, Bool.false_eq_true, if_false]
  by_cases h1 : env.sudoUser = []
  · simp [h1]
  · by_cases h2 : env.userKnown = false
    · simp [h1, h2]
    · simp [h1, h2]

/-- Two buffered addresses give two lines, and resChan is drained. -/
theorem writeFile_content_witness :
    (writeFile { writeFileFails := false, sudoUser := "u".toList, userKnown := true }
        { buf := ["1.0.0.0".toList, "1.0.0.2".toList], cap := 4 }).written
      = some "1.0.0.0\n1.0.0.2\n".toList ∧
    (writeFile { writeFileFails := false, sudoUser := "u".toList, userKnown := true }
        { buf := ["1.0.0.0".toList, "1.0.0.2".toList], cap := 4 }).resChan.buf = [] :=
  writeFile_content { writeFileFails := false, sudoUser := "u".toList, userKnown := true }
    { buf := ["1.0.0.0".toList, "1.0.0.2".toList], cap := 4 } rfl

/-- C9: after parseFlags the worker count is at least 1: a configured
count `t` is kept when `t > 0` and replaced by 8192 when `t ≤ 0`, and
without the flag the count is the default 8192. -/
theorem parseFlags_threadCount (v : Option Bool) (o : Option Str) (t : Int) :
    1 ≤ (parseFlags v o (some t)).threadCount ∧
    (parseFlags v o (some t)).threadCount = (if 0 < t then t else 8192) ∧
    (parseFlags v o none).threadCount = 8192 := by
  unfold parseFlags
  simp only [Option.getD_some, Option.getD_none]
  refine ⟨?_, ?_, by decide⟩
  · split_ifs <;> omega
  · split_ifs <;> omega

/-- C10, as the code behaves: a worker that finds the stop flag unset and
the work supply empty does not leave its loop: it waits on the receive
from the supply, which the program never closes and never refills, and it
never returns. -/
theorem runPings_blocks_on_empty_supply (probe : Str → Probe) (fuel : Nat) (w : World)
    (hdone : w.done = false) (hempty : w.ips.buf = []) :
    runPings probe (fuel + 1) w = .blocked ∧
    ∀ (n : Nat) (w' : World), runPings probe n w ≠ .ok w' := by
  refine ⟨?_, fun n w' => runPings_not_ok_of_not_done probe n w w' hdone⟩
  unfold runPings
  simp [hdone, hempty]

/-- A worker started on an empty supply with the stop flag unset waits at
once. -/
theorem runPings_blocks_on_empty_supply_witness :
    runPings (fun _ => Probe.finished none) 1
      { done := false, scanned := 2, ips := { buf := [], cap := 2 },
        responses := { buf := [], cap := 2 }, idles := { buf := [], cap := 2 },
        resChan := { buf := [], cap := 2 } } = .blocked :=
  (runPings_blocks_on_empty_supply (fun _ => Probe.finished none) 0 _ rfl rfl).1

/-- No exit on an exhausted supply: a worker alone on a supply of two
addresses probes both and then, with the stop flag unset and the supply
empty, waits on the supply; for no amount of fuel does it return. -/
theorem runPings_waits_after_last_address :
    runPings (fun addr => Probe.finished (if addr = "1.0.0.0".toList then some addr else none)) 3
      { done := false, scanned := 0,
        ips := { buf := ["1.0.0.0".toList, "2.0.0.0".toList], cap := 2 },
        responses := { buf := [], cap := 2 }, idles := { buf := [], cap := 2 },
        resChan := { buf := [], cap := 2 } } = .blocked ∧
    ∀ (fuel : Nat) (w' : World),
      runPings (fun addr => Probe.finished (if addr = "1.0.0.0".toList then some addr else none))
        fuel
        { done := false, scanned := 0,
          ips := { buf := ["1.0.0.0".toList, "2.0.0.0".toList], cap := 2 },
          responses := { buf := [], cap := 2 }, idles := { buf := [], cap := 2 },
          resChan := { buf := [], cap := 2 } } ≠ .ok w' :=
  ⟨by decide, fun fuel w' => runPings_not_ok_of_not_done _ fuel _ w' rfl⟩

end Pingr
